import Mathlib

/-!
Verification of the `scope_store` crate: a tree of lexical scopes in which
each node holds local bindings and delegates lookups and certain writes to
its ancestors.

The Rust heap of `Rc<RefCell<Scope<T>>>` nodes is embedded as a store: a list
of `Scope` records addressed by natural-number indices.  A `PScope` handle is
an index into the store.  Ancestor walks in the Rust code are recursive calls
through `parent` handles; they are embedded as fueled recursion, where the
fuel only bounds the walk (public wrappers pass the store size, which bounds
the length of any ancestor chain in a well-formed store).
-/

set_option maxHeartbeats 1000000

universe u

/-- Association-list lookup, first binding wins (models `BTreeMap::get`). -/
def lookupA {T : Type u} : List (String × T) → String → Option T
  | [], _ => none
  | (k, v) :: rest, id => if k = id then some v else lookupA rest id

/-- Association-list insert-or-overwrite (models `BTreeMap::insert`):
an existing binding is overwritten in place, a new key is appended. -/
def insertA {T : Type u} : List (String × T) → String → T → List (String × T)
  | [], id, val => [(id, val)]
  | (k, v) :: rest, id, val =>
      if k = id then (id, val) :: rest else (k, v) :: insertA rest id val

/-- One scope node, as in `struct Scope<T>` of the source: its own `data`
bindings, an optional `parent` handle and an optional cached `root` handle.
Handles are store indices. -/
structure Scope (T : Type u) where
  data : List (String × T)
  parent : Option Nat
  root : Option Nat
deriving DecidableEq

/-- The heap: node `i` of the tree lives at index `i` of the list. -/
abbrev Store (T : Type u) := List (Scope T)

/-- Dereference a handle. -/
def getNode {T : Type u} (s : Store T) (i : Nat) : Option (Scope T) := s[i]?

/-- Apply a function to the `data` field of node `i`, leaving every other
node and the node's `parent`/`root` fields untouched. -/
def setData {T : Type u} (s : Store T) (i : Nat)
    (f : List (String × T) → List (String × T)) : Store T :=
  match getNode s i with
  | some nd => s.set i { nd with data := f nd.data }
  | none => s

/-- The `parent` field of node `i` (none if the node does not exist). -/
def parentOf {T : Type u} (s : Store T) (i : Nat) : Option Nat :=
  match getNode s i with
  | some nd => nd.parent
  | none => none

/-- The cached `root` field of node `i` (none if the node does not exist). -/
def rootOf {T : Type u} (s : Store T) (i : Nat) : Option Nat :=
  match getNode s i with
  | some nd => nd.root
  | none => none

/-- The value bound to `k` in node `i`'s own bindings. -/
def valueAt {T : Type u} (s : Store T) (i : Nat) (k : String) : Option T :=
  match getNode s i with
  | some nd => lookupA nd.data k
  | none => none

namespace Scope

/-- `Scope::new`: a fresh root node with no parent and no cached root. -/
def new {T : Type u} : Scope T := { data := [], parent := none, root := none }

/-- `Scope::get`: look in this node's own bindings, else recurse to the
parent; the fuel only bounds the recursion depth. -/
def getF {T : Type u} (s : Store T) : Nat → Nat → String → Option T
  | fuel+1, i, k =>
    match getNode s i with
    | none => none
    | some nd =>
      match lookupA nd.data k with
      | some v => some v
      | none =>
        match nd.parent with
        | some p => getF s fuel p k
        | none => none
  | 0, _, _ => none

/-- `Scope::try_replace`: overwrite the nearest existing binding of `id` in
the self-then-ancestors chain and return `none`; if no node in the chain
binds `id`, return `some val` (the caller inserts it locally) and leave the
store unchanged. -/
def try_replaceF {T : Type u} (s : Store T) :
    Nat → Nat → String → T → Option T × Store T
  | fuel+1, i, id, val =>
    match getNode s i with
    | none => (some val, s)
    | some nd =>
      match lookupA nd.data id with
      | some _ => (none, s.set i { nd with data := insertA nd.data id val })
      | none =>
        match nd.parent with
        | some p => try_replaceF s fuel p id val
        | none => (some val, s)
  | 0, _, _, val => (some val, s)

/-- `Scope::set` (lexical assignment): overwrite locally if `id` is already
bound here; otherwise ask the parent chain via `try_replace`, and if nothing
up the chain binds `id`, insert the returned value locally. -/
def setF {T : Type u} (s : Store T) (fuel i : Nat) (id : String) (val : T) :
    Store T :=
  match getNode s i with
  | none => s
  | some nd =>
    match lookupA nd.data id with
    | some _ => s.set i { nd with data := insertA nd.data id val }
    | none =>
      match nd.parent with
      | some p =>
        match try_replaceF s fuel p id val with
        | (some v, s1) => setData s1 i (fun d => insertA d id v)
        | (none, s1) => s1
      | none => s.set i { nd with data := insertA nd.data id val }

/-- `Scope::set_global`: if the node has a cached root, delegate to that
root's `set`; otherwise (this node is the root) insert locally. -/
def set_globalF {T : Type u} (s : Store T) (fuel i : Nat) (id : String)
    (val : T) : Store T :=
  match getNode s i with
  | none => s
  | some nd =>
    match nd.root with
    | some r => setF s fuel r id val
    | none => s.set i { nd with data := insertA nd.data id val }

/-- `Scope::update`: apply `f` to the value at the nearest node in the chain
binding `k`, storing the new value and returning `f`'s result; `none` and no
mutation when nothing in the chain binds `k`.  The Rust transform
`Fn(&mut T) -> A` is embedded as `f : T → T × A` (new value, result). -/
def updateF {T : Type u} {A : Type u} (s : Store T) (f : T → T × A) :
    Nat → Nat → String → Option A × Store T
  | fuel+1, i, k =>
    match getNode s i with
    | none => (none, s)
    | some nd =>
      match lookupA nd.data k with
      | some v =>
          (some (f v).2, s.set i { nd with data := insertA nd.data k (f v).1 })
      | none =>
        match nd.parent with
        | some p => updateF s f fuel p k
        | none => (none, s)
  | 0, _, _ => (none, s)

end Scope

namespace PScope

/-- `PScope::new`: a store holding a single fresh root node; its handle is
index `0`. -/
def new {T : Type u} : Store T := [Scope.new]

/-- `PScope::set_local`: unconditional insert-or-overwrite in the node's own
bindings. -/
def set_local {T : Type u} (s : Store T) (i : Nat) (id : String) (val : T) :
    Store T :=
  setData s i (fun d => insertA d id val)

/-- `PScope::set_global`, with fuel fixed to the store size (an upper bound
on the length of any ancestor chain of a well-formed store). -/
def set_global {T : Type u} (s : Store T) (i : Nat) (id : String) (val : T) :
    Store T :=
  Scope.set_globalF s s.length i id val

/-- `PScope::set`, with fuel fixed to the store size. -/
def set {T : Type u} (s : Store T) (i : Nat) (id : String) (val : T) :
    Store T :=
  Scope.setF s s.length i id val

/-- `PScope::try_replace`, with fuel fixed to the store size. -/
def try_replace {T : Type u} (s : Store T) (i : Nat) (id : String) (val : T) :
    Option T × Store T :=
  Scope.try_replaceF s s.length i id val

/-- `PScope::update`, with fuel fixed to the store size. -/
def update {T : Type u} {A : Type u} (s : Store T) (i : Nat) (k : String)
    (f : T → T × A) : Option A × Store T :=
  Scope.updateF s f s.length i k

/-- `PScope::get`, with fuel fixed to the store size. -/
def get {T : Type u} (s : Store T) (i : Nat) (k : String) : Option T :=
  Scope.getF s s.length i k

/-- `PScope::child`: append a fresh node whose parent is `i` and whose
cached root is `i`'s cached root when present, else `i` itself.  The new
node's handle is the old store's length. -/
def child {T : Type u} (s : Store T) (i : Nat) : Store T :=
  match getNode s i with
  | none => s
  | some nd =>
    s ++ [{ data := [],
            parent := some i,
            root := some (match nd.root with | some r => r | none => i) }]

end PScope

/-- The self-then-ancestors chain of node `i`, truncated by the fuel. -/
def chainF {T : Type u} (s : Store T) : Nat → Nat → List Nat
  | 0, _ => []
  | fuel+1, i =>
    i :: (match parentOf s i with
          | some p => chainF s fuel p
          | none => [])

/-- The nearest node in the self-then-ancestors chain of `i` whose own
bindings contain `k`. -/
def firstBinder {T : Type u} (s : Store T) (fuel i : Nat) (k : String) :
    Option Nat :=
  (chainF s fuel i).find? (fun j => (valueAt s j k).isSome)

/-! ### Basic lemmas about the association list and the store -/

theorem lookupA_insertA_self {T : Type u} (d : List (String × T)) (id : String)
    (val : T) : lookupA (insertA d id val) id = some val := by
  induction d with
  | nil => simp [insertA, lookupA]
  | cons hd tl ih =>
    obtain ⟨k, v⟩ := hd
    by_cases h : k = id
    · simp [insertA, h, lookupA]
    · simp [insertA, h, lookupA, ih]

theorem lookupA_insertA_ne {T : Type u} (d : List (String × T)) (id k : String)
    (val : T) (h : k ≠ id) : lookupA (insertA d id val) k = lookupA d k := by
  induction d with
  | nil => simp [insertA, lookupA, Ne.symm h]
  | cons hd tl ih =>
    obtain ⟨k0, v0⟩ := hd
    by_cases h0 : k0 = id
    · subst h0
      simp [insertA, lookupA, Ne.symm h]
    · simp only [insertA, if_neg h0, lookupA]
      by_cases hk : k0 = k
      · simp [hk]
      · simp [hk, ih]

theorem getNode_lt_length {T : Type u} {s : Store T} {i : Nat}
    (h : i < s.length) : ∃ nd, getNode s i = some nd := by
  simp [getNode, List.getElem?_eq_getElem h]

theorem lt_length_of_getNode {T : Type u} {s : Store T} {i : Nat}
    {nd : Scope T} (h : getNode s i = some nd) : i < s.length := by
  rcases List.getElem?_eq_some.mp h with ⟨hlt, _⟩
  exact hlt

theorem getNode_set_self {T : Type u} {s : Store T} {i : Nat} {nd : Scope T}
    (h : getNode s i = some nd) (x : Scope T) :
    getNode (s.set i x) i = some x := by
  have hlt := lt_length_of_getNode h
  simp [getNode, List.getElem?_set_self', List.getElem?_eq_getElem hlt]

theorem getNode_set_ne {T : Type u} (s : Store T) (i m : Nat) (x : Scope T)
    (h : m ≠ i) : getNode (s.set i x) m = getNode s m := by
  simp [getNode, List.getElem?_set_ne (fun e => h e.symm)]

theorem getNode_setData_ne {T : Type u} (s : Store T) (i m : Nat)
    (f : List (String × T) → List (String × T)) (h : m ≠ i) :
    getNode (setData s i f) m = getNode s m := by
  unfold setData
  cases hnd : getNode s i with
  | none => rfl
  | some nd => exact getNode_set_ne s i m _ h

theorem getNode_setData_self {T : Type u} {s : Store T} {i : Nat}
    {nd : Scope T} (f : List (String × T) → List (String × T))
    (h : getNode s i = some nd) :
    getNode (setData s i f) i = some { nd with data := f nd.data } := by
  unfold setData
  rw [h]
  exact getNode_set_self h _

theorem length_setData {T : Type u} (s : Store T) (i : Nat)
    (f : List (String × T) → List (String × T)) :
    (setData s i f).length = s.length := by
  unfold setData
  cases getNode s i <;> simp

theorem getNode_setData {T : Type u} (s : Store T) (i m : Nat)
    (f : List (String × T) → List (String × T)) :
    getNode (setData s i f) m =
      if m = i then (getNode s m).map (fun nd => { nd with data := f nd.data })
      else getNode s m := by
  by_cases h : m = i
  · subst h
    cases hnd : getNode s m with
    | none => simp [setData, hnd]
    | some nd => simp [setData, hnd, getNode_set_self hnd]
  · simp [h, getNode_setData_ne s i m f h]

theorem parentOf_setData {T : Type u} (s : Store T) (i m : Nat)
    (f : List (String × T) → List (String × T)) :
    parentOf (setData s i f) m = parentOf s m := by
  unfold parentOf
  rw [getNode_setData]
  by_cases h : m = i
  · rw [if_pos h]
    cases getNode s m <;> rfl
  · rw [if_neg h]

theorem rootOf_setData {T : Type u} (s : Store T) (i m : Nat)
    (f : List (String × T) → List (String × T)) :
    rootOf (setData s i f) m = rootOf s m := by
  unfold rootOf
  rw [getNode_setData]
  by_cases h : m = i
  · rw [if_pos h]
    cases getNode s m <;> rfl
  · rw [if_neg h]

/-! ### Closed forms: each ancestor-walking operation acts at `firstBinder` -/

theorem valueAt_isSome_of_lookup {T : Type u} {s : Store T} {i : Nat}
    {nd : Scope T} {k : String} (hnd : getNode s i = some nd) :
    valueAt s i k = lookupA nd.data k := by
  simp [valueAt, hnd]

theorem getF_eq_firstBinder {T : Type u} (s : Store T) (k : String) :
    ∀ fuel i, Scope.getF s fuel i k =
      match firstBinder s fuel i k with
      | some j => valueAt s j k
      | none => none := by
  intro fuel
  induction fuel with
  | zero => intro i; simp [Scope.getF, firstBinder, chainF]
  | succ fuel ih =>
    intro i
    cases hnd : getNode s i with
    | none =>
      simp [Scope.getF, firstBinder, chainF, parentOf, hnd, valueAt]
    | some nd =>
      cases hl : lookupA nd.data k with
      | some v =>
        have hv : valueAt s i k = some v := by simp [valueAt, hnd, hl]
        simp [Scope.getF, firstBinder, chainF, parentOf, hnd, hl, hv]
      | none =>
        have hv : valueAt s i k = none := by simp [valueAt, hnd, hl]
        cases hp : nd.parent with
        | some p =>
          have := ih p
          simp only [firstBinder] at this
          simp [Scope.getF, firstBinder, chainF, parentOf, hnd, hl, hp, hv,
            this]
        | none =>
          simp [Scope.getF, firstBinder, chainF, parentOf, hnd, hl, hp, hv]

theorem try_replaceF_eq_firstBinder {T : Type u} (s : Store T) (id : String)
    (val : T) :
    ∀ fuel i, Scope.try_replaceF s fuel i id val =
      match firstBinder s fuel i id with
      | some j => (none, setData s j (fun d => insertA d id val))
      | none => (some val, s) := by
  intro fuel
  induction fuel with
  | zero => intro i; simp [Scope.try_replaceF, firstBinder, chainF]
  | succ fuel ih =>
    intro i
    cases hnd : getNode s i with
    | none =>
      simp [Scope.try_replaceF, firstBinder, chainF, parentOf, hnd, valueAt]
    | some nd =>
      cases hl : lookupA nd.data id with
      | some v =>
        have hv : valueAt s i id = some v := by simp [valueAt, hnd, hl]
        simp [Scope.try_replaceF, firstBinder, chainF, parentOf, hnd, hl, hv,
          setData]
      | none =>
        have hv : valueAt s i id = none := by simp [valueAt, hnd, hl]
        cases hp : nd.parent with
        | some p =>
          have := ih p
          simp only [firstBinder] at this
          simp [Scope.try_replaceF, firstBinder, chainF, parentOf, hnd, hl,
            hp, hv, this]
        | none =>
          simp [Scope.try_replaceF, firstBinder, chainF, parentOf, hnd, hl,
            hp, hv]

theorem updateF_eq_firstBinder {T : Type u} {A : Type u} (s : Store T)
    (f : T → T × A) (k : String) :
    ∀ fuel i, Scope.updateF s f fuel i k =
      match firstBinder s fuel i k with
      | some j =>
        match valueAt s j k with
        | some v => (some (f v).2, setData s j (fun d => insertA d k (f v).1))
        | none => (none, s)
      | none => (none, s) := by
  intro fuel
  induction fuel with
  | zero => intro i; simp [Scope.updateF, firstBinder, chainF]
  | succ fuel ih =>
    intro i
    cases hnd : getNode s i with
    | none =>
      simp [Scope.updateF, firstBinder, chainF, parentOf, hnd, valueAt]
    | some nd =>
      cases hl : lookupA nd.data k with
      | some v =>
        have hv : valueAt s i k = some v := by simp [valueAt, hnd, hl]
        simp [Scope.updateF, firstBinder, chainF, parentOf, hnd, hl, hv,
          setData]
      | none =>
        have hv : valueAt s i k = none := by simp [valueAt, hnd, hl]
        cases hp : nd.parent with
        | some p =>
          have := ih p
          simp only [firstBinder] at this
          simp [Scope.updateF, firstBinder, chainF, parentOf, hnd, hl, hp,
            hv, this]
        | none =>
          simp [Scope.updateF, firstBinder, chainF, parentOf, hnd, hl, hp, hv]

theorem setF_eq_firstBinder {T : Type u} (s : Store T) (fuel i : Nat)
    (id : String) (val : T) :
    Scope.setF s fuel i id val =
      match getNode s i with
      | none => s
      | some nd =>
        match lookupA nd.data id with
        | some _ => setData s i (fun d => insertA d id val)
        | none =>
          match nd.parent with
          | some p =>
            match firstBinder s fuel p id with
            | some j => setData s j (fun d => insertA d id val)
            | none => setData s i (fun d => insertA d id val)
          | none => setData s i (fun d => insertA d id val) := by
  cases hnd : getNode s i with
  | none => simp [Scope.setF, hnd]
  | some nd =>
    cases hl : lookupA nd.data id with
    | some v => simp [Scope.setF, hnd, hl, setData]
    | none =>
      cases hp : nd.parent with
      | some p =>
        rw [Scope.setF]
        rw [hnd]
        simp only [hl, hp]
        rw [try_replaceF_eq_firstBinder]
        cases hfb : firstBinder s fuel p id with
        | some j => simp
        | none => simp [setData, hnd]
      | none => simp [Scope.setF, hnd, hl, hp, setData]

/-! ### Stores reachable from a fresh root, and their invariant -/

instance instDecExistsSomeLt (o : Option Nat) (i : Nat) :
    Decidable (∃ p, o = some p ∧ p < i) :=
  match o with
  | none => isFalse (fun hc => by rcases hc with ⟨p, hp, _⟩; cases hp)
  | some q =>
    if h : q < i then isTrue ⟨q, rfl, h⟩
    else isFalse (fun hc => by
      rcases hc with ⟨p, hp, hlt⟩
      cases hp
      exact h hlt)

/-- The structural invariant of every reachable store: node `0` is the unique
root (no parent, no cached root), and every other node has a parent with a
smaller index and caches node `0` as its root. -/
def StoreInv {T : Type u} (s : Store T) : Prop :=
  0 < s.length ∧ parentOf s 0 = none ∧ rootOf s 0 = none ∧
  ∀ i, i < s.length → 0 < i →
    (∃ p, parentOf s i = some p ∧ p < i) ∧ rootOf s i = some 0

/-- `s1` agrees with `s` on the `parent` and `root` fields of every node of
`s`: no operation ever rewires an existing node. -/
def FieldsPreserved {T : Type u} (s s1 : Store T) : Prop :=
  ∀ i, i < s.length → parentOf s1 i = parentOf s i ∧ rootOf s1 i = rootOf s i

/-- One application of a public mutating operation, through any handle. -/
inductive Step {T : Type u} : Store T → Store T → Prop
  | set_local (s : Store T) (i : Nat) (id : String) (val : T) :
      Step s (PScope.set_local s i id val)
  | set_global (s : Store T) (i : Nat) (id : String) (val : T) :
      Step s (PScope.set_global s i id val)
  | set (s : Store T) (i : Nat) (id : String) (val : T) :
      Step s (PScope.set s i id val)
  | try_replace (s : Store T) (i : Nat) (id : String) (val : T) :
      Step s (PScope.try_replace s i id val).2
  | update {A : Type u} (s : Store T) (i : Nat) (k : String) (f : T → T × A) :
      Step s (PScope.update s i k f).2
  | child (s : Store T) (i : Nat) :
      Step s (PScope.child s i)

/-- Stores reachable by constructing a fresh root and applying any sequence
of operations through any handles. -/
inductive Reachable {T : Type u} : Store T → Prop
  | base : Reachable (PScope.new : Store T)
  | step {s s1 : Store T} : Reachable s → Step s s1 → Reachable s1

/-- `s1` is `s` with at most the `data` of one node changed. -/
def DataOnly {T : Type u} (s s1 : Store T) : Prop :=
  s1 = s ∨ ∃ j f, s1 = setData s j f

theorem dataOnly_setF {T : Type u} (s : Store T) (fuel i : Nat) (id : String)
    (val : T) : DataOnly s (Scope.setF s fuel i id val) := by
  rw [setF_eq_firstBinder]
  split
  · exact Or.inl rfl
  · split
    · exact Or.inr ⟨i, _, rfl⟩
    · split
      · split
        · exact Or.inr ⟨_, _, rfl⟩
        · exact Or.inr ⟨i, _, rfl⟩
      · exact Or.inr ⟨i, _, rfl⟩

theorem dataOnly_set_globalF {T : Type u} (s : Store T) (fuel i : Nat)
    (id : String) (val : T) :
    DataOnly s (Scope.set_globalF s fuel i id val) := by
  unfold Scope.set_globalF
  split
  · exact Or.inl rfl
  · next nd heq =>
    split
    · next r hr => exact dataOnly_setF s fuel r id val
    · next hr =>
      refine Or.inr ⟨i, fun d => insertA d id val, ?_⟩
      simp [setData, heq]

theorem dataOnly_try_replaceF {T : Type u} (s : Store T) (fuel i : Nat)
    (id : String) (val : T) :
    DataOnly s (Scope.try_replaceF s fuel i id val).2 := by
  rw [try_replaceF_eq_firstBinder]
  split
  · next j hfb => exact Or.inr ⟨j, fun d => insertA d id val, rfl⟩
  · exact Or.inl rfl

theorem dataOnly_updateF {T : Type u} {A : Type u} (s : Store T)
    (f : T → T × A) (fuel i : Nat) (k : String) :
    DataOnly s (Scope.updateF s f fuel i k).2 := by
  rw [updateF_eq_firstBinder]
  split
  · next j hfb =>
    split
    · next v hv => exact Or.inr ⟨j, fun d => insertA d k (f v).1, rfl⟩
    · exact Or.inl rfl
  · exact Or.inl rfl

theorem storeInv_dataOnly {T : Type u} {s s1 : Store T} (hd : DataOnly s s1)
    (h : StoreInv s) : StoreInv s1 := by
  rcases hd with rfl | ⟨j, f, rfl⟩
  · exact h
  · obtain ⟨h1, h2, h3, h4⟩ := h
    refine ⟨by rwa [length_setData], by rwa [parentOf_setData],
      by rwa [rootOf_setData], ?_⟩
    intro i hi hpos
    rw [length_setData] at hi
    rcases h4 i hi hpos with ⟨⟨p, hp, hplt⟩, hr⟩
    exact ⟨⟨p, by rwa [parentOf_setData], hplt⟩, by rwa [rootOf_setData]⟩

theorem parentOf_append_left {T : Type u} {s : Store T} {i : Nat}
    (h : i < s.length) (nd : Scope T) :
    parentOf (s ++ [nd]) i = parentOf s i := by
  unfold parentOf getNode
  rw [List.getElem?_append_left h]

theorem rootOf_append_left {T : Type u} {s : Store T} {i : Nat}
    (h : i < s.length) (nd : Scope T) :
    rootOf (s ++ [nd]) i = rootOf s i := by
  unfold rootOf getNode
  rw [List.getElem?_append_left h]

theorem storeInv_child {T : Type u} {s : Store T} (h : StoreInv s) (i : Nat) :
    StoreInv (PScope.child s i) := by
  unfold PScope.child
  split
  · exact h
  · next nd hnd =>
    obtain ⟨h1, h2, h3, h4⟩ := h
    have hi : i < s.length := lt_length_of_getNode hnd
    have hroots : rootOf s i = nd.root := by simp [rootOf, hnd]
    have hroot0 :
        (match nd.root with | some r => r | none => i) = 0 := by
      cases hroot : nd.root with
      | none =>
        rcases Nat.eq_zero_or_pos i with h0 | hpos
        · simpa using h0
        · have h5 := (h4 i hi hpos).2
          rw [hroots, hroot] at h5
          cases h5
      | some r =>
        rcases Nat.eq_zero_or_pos i with h0 | hpos
        · subst h0
          rw [hroots, hroot] at h3
          cases h3
        · have h5 := (h4 i hi hpos).2
          rw [hroots, hroot] at h5
          simp at h5
          simpa using h5
    refine ⟨by simp, ?_, ?_, ?_⟩
    · rw [parentOf_append_left h1]
      exact h2
    · rw [rootOf_append_left h1]
      exact h3
    · intro m hm hmpos
      rw [List.length_append, List.length_singleton] at hm
      rcases Nat.lt_succ_iff_lt_or_eq.mp hm with hlt | heq
      · rcases h4 m hlt hmpos with ⟨⟨p, hp, hplt⟩, hr⟩
        refine ⟨⟨p, ?_, hplt⟩, ?_⟩
        · rwa [parentOf_append_left hlt]
        · rwa [rootOf_append_left hlt]
      · subst heq
        constructor
        · refine ⟨i, ?_, hi⟩
          unfold parentOf getNode
          rw [List.getElem?_concat_length]
        · unfold rootOf getNode
          rw [List.getElem?_concat_length]
          simpa using hroot0

theorem storeInv_step {T : Type u} {s s1 : Store T} (hstep : Step s s1)
    (h : StoreInv s) : StoreInv s1 := by
  cases hstep with
  | set_local s i id val =>
      exact storeInv_dataOnly (Or.inr ⟨i, _, rfl⟩) h
  | set_global s i id val =>
      exact storeInv_dataOnly (dataOnly_set_globalF s s.length i id val) h
  | set s i id val =>
      exact storeInv_dataOnly (dataOnly_setF s s.length i id val) h
  | try_replace s i id val =>
      exact storeInv_dataOnly (dataOnly_try_replaceF s s.length i id val) h
  | update s i k f =>
      exact storeInv_dataOnly (dataOnly_updateF s _ s.length i k) h
  | child s i =>
      exact storeInv_child h i

theorem storeInv_new {T : Type u} : StoreInv (PScope.new : Store T) := by
  refine ⟨by simp [PScope.new], rfl, rfl, ?_⟩
  intro i hi hpos
  simp [PScope.new] at hi
  omega

theorem storeInv_of_reachable {T : Type u} {s : Store T} (h : Reachable s) :
    StoreInv s := by
  induction h with
  | base => exact storeInv_new
  | step _ hstep ih => exact storeInv_step hstep ih

theorem fieldsPreserved_of_step {T : Type u} {s s1 : Store T}
    (h : Step s s1) : FieldsPreserved s s1 := by
  have hshape : DataOnly s s1 ∨ ∃ nd : Scope T, s1 = s ++ [nd] := by
    cases h with
    | set_local s i id val => exact Or.inl (Or.inr ⟨i, _, rfl⟩)
    | set_global s i id val =>
        exact Or.inl (dataOnly_set_globalF s s.length i id val)
    | set s i id val => exact Or.inl (dataOnly_setF s s.length i id val)
    | try_replace s i id val =>
        exact Or.inl (dataOnly_try_replaceF s s.length i id val)
    | update s i k f => exact Or.inl (dataOnly_updateF s _ s.length i k)
    | child s i =>
        unfold PScope.child
        split
        · exact Or.inl (Or.inl rfl)
        · exact Or.inr ⟨_, rfl⟩
  rcases hshape with (rfl | ⟨j, f, rfl⟩) | ⟨nd, rfl⟩
  · intro i _
    exact ⟨rfl, rfl⟩
  · intro i _
    exact ⟨parentOf_setData s j i f, rootOf_setData s j i f⟩
  · intro i hi
    exact ⟨parentOf_append_left hi nd, rootOf_append_left hi nd⟩

/-! ### Chains: fuel stability, membership, lookup along a split chain -/

theorem find?_append_of_none {α : Type u} (p : α → Bool) (l1 l2 : List α)
    (h : ∀ a ∈ l1, p a = false) :
    List.find? p (l1 ++ l2) = List.find? p l2 := by
  induction l1 with
  | nil => simp
  | cons a l ih =>
    rw [List.cons_append, List.find?_cons_of_neg]
    · exact ih (fun b hb => h b (List.mem_cons_of_mem a hb))
    · simp [h a (List.mem_cons_self a l)]

theorem self_mem_chainF {T : Type u} (s : Store T) (fuel i : Nat)
    (h : 0 < fuel) : i ∈ chainF s fuel i := by
  cases fuel with
  | zero => omega
  | succ f =>
    simp only [chainF]
    exact List.mem_cons_self _ _

theorem parent_lt_of_storeInv {T : Type u} {s : Store T} (h : StoreInv s) :
    ∀ a b, parentOf s a = some b → b < a := by
  intro a b hab
  by_cases ha : a < s.length
  · rcases Nat.eq_zero_or_pos a with h0 | hpos
    · subst h0
      rw [h.2.1] at hab
      cases hab
    · rcases (h.2.2.2 a ha hpos).1 with ⟨p, hp, hplt⟩
      rw [hp] at hab
      cases hab
      exact hplt
  · have hnone : parentOf s a = none := by
      unfold parentOf getNode
      rw [List.getElem?_eq_none (by omega)]
    rw [hnone] at hab
    cases hab

theorem chainF_congr {T : Type u} {s : Store T}
    (hdec : ∀ a b, parentOf s a = some b → b < a) :
    ∀ i f1 f2, i < f1 → i < f2 → chainF s f1 i = chainF s f2 i := by
  intro i
  induction i using Nat.strong_induction_on with
  | _ i ih =>
    intro f1 f2 h1 h2
    cases f1 with
    | zero => omega
    | succ g1 =>
      cases f2 with
      | zero => omega
      | succ g2 =>
        simp only [chainF]
        cases hp : parentOf s i with
        | none => rfl
        | some p =>
          have hpi := hdec i p hp
          simp only [ih p hpi g1 g2 (by omega) (by omega)]

theorem zero_mem_chainF {T : Type u} {s : Store T} (h : StoreInv s) :
    ∀ fuel i, i < s.length → i < fuel → 0 ∈ chainF s fuel i := by
  intro fuel
  induction fuel with
  | zero => intro i _ h2; omega
  | succ fuel ih =>
    intro i hi _
    rcases Nat.eq_zero_or_pos i with h0 | hpos
    · subst h0
      exact self_mem_chainF s (fuel + 1) 0 (by omega)
    · rcases (h.2.2.2 i hi hpos).1 with ⟨p, hp, hplt⟩
      simp only [chainF, hp]
      exact List.mem_cons_of_mem i (ih p (by omega) (by omega))

theorem getF_of_chain_split {T : Type u} (s : Store T) (id : String) (val : T)
    (fuel d j : Nat) (pre rest : List Nat)
    (hch : chainF s fuel d = pre ++ j :: rest)
    (hpre : ∀ m ∈ pre, valueAt s m id = none)
    (hj : valueAt s j id = some val) :
    Scope.getF s fuel d id = some val := by
  rw [getF_eq_firstBinder]
  have hfb : firstBinder s fuel d id = some j := by
    unfold firstBinder
    rw [hch, find?_append_of_none]
    · rw [List.find?_cons_of_pos]
      simp [hj]
    · intro m hm
      simp [hpre m hm]
  rw [hfb]
  exact hj

/-! ### `set_global` acts as a plain insert at the root -/

theorem setF_at_parentless {T : Type u} {s : Store T} {r : Nat}
    {nd : Scope T} (hnd : getNode s r = some nd) (hp : nd.parent = none)
    (fuel : Nat) (id : String) (val : T) :
    Scope.setF s fuel r id val = setData s r (fun d => insertA d id val) := by
  rw [setF_eq_firstBinder]
  simp only [hnd, hp]
  cases hl : lookupA nd.data id with
  | some v => simp [hl]
  | none => simp [hl]

/-- What the spec says `set_global` does: insert or overwrite directly in the
bindings of the cached root when there is one, else of the node itself, with
no ancestor search. -/
def setGlobalSpec {T : Type u} (s : Store T) (i : Nat) (id : String)
    (val : T) : Store T :=
  match rootOf s i with
  | some r => setData s r (fun d => insertA d id val)
  | none => setData s i (fun d => insertA d id val)

theorem set_globalF_eq_spec {T : Type u} (s : Store T) (i : Nat)
    (id : String) (val : T) (h : StoreInv s) :
    PScope.set_global s i id val = setGlobalSpec s i id val := by
  obtain ⟨h1, h2, h3, h4⟩ := h
  rcases Nat.lt_or_ge i s.length with hi | hi
  · obtain ⟨nd, hnd⟩ := getNode_lt_length hi
    cases hroot : nd.root with
    | none =>
      have hr : rootOf s i = none := by simp [rootOf, hnd, hroot]
      simp [PScope.set_global, Scope.set_globalF, setGlobalSpec, hr, hnd,
        hroot, setData]
    | some r =>
      have hroots : rootOf s i = some r := by simp [rootOf, hnd, hroot]
      have hr0 : r = 0 := by
        rcases Nat.eq_zero_or_pos i with h0 | hpos
        · subst h0
          rw [h3] at hroots
          cases hroots
        · have h5 := (h4 i hi hpos).2
          rw [hroots] at h5
          cases h5
          rfl
      subst hr0
      obtain ⟨nd0, hnd0⟩ := getNode_lt_length h1
      have hp0 : nd0.parent = none := by
        have := h2
        rw [parentOf, hnd0] at this
        exact this
      have hset := setF_at_parentless hnd0 hp0 s.length id val
      simp [PScope.set_global, Scope.set_globalF, setGlobalSpec, hroots, hnd,
        hroot, hset]
  · have hnd : getNode s i = none := by
      unfold getNode
      rw [List.getElem?_eq_none (by omega)]
    have hr : rootOf s i = none := by simp [rootOf, hnd]
    simp [PScope.set_global, Scope.set_globalF, setGlobalSpec, hr, hnd,
      setData]

theorem set_global_eq_setData_zero {T : Type u} {s : Store T} {i : Nat}
    (h : StoreInv s) (hi : i < s.length) (id : String) (val : T) :
    PScope.set_global s i id val = setData s 0 (fun d => insertA d id val) := by
  rw [set_globalF_eq_spec s i id val h]
  obtain ⟨nd, hnd⟩ := getNode_lt_length hi
  rcases Nat.eq_zero_or_pos i with h0 | hpos
  · subst h0
    unfold setGlobalSpec
    rw [h.2.2.1]
  · unfold setGlobalSpec
    rw [(h.2.2.2 i hi hpos).2]

/-! ### `set_local` on the node's own bindings -/

theorem valueAt_set_local_self {T : Type u} {s : Store T} {i : Nat}
    {nd : Scope T} (hnd : getNode s i = some nd) (id : String) (val : T) :
    valueAt (PScope.set_local s i id val) i id = some val := by
  unfold PScope.set_local valueAt
  rw [getNode_setData_self (fun d => insertA d id val) hnd]
  simp [lookupA_insertA_self]

/-! ### The claims -/

/-- C1: `set(id, val)` is lexical assignment: if the node's own bindings
contain `id` it is overwritten there; otherwise the nearest ancestor binding
`id` is overwritten in place; and if no node of the chain binds `id`, the
pair is inserted into the original caller's own bindings. -/
theorem set_assigns_nearest_existing_or_declares_locally {T : Type u}
    (s : Store T) (i : Nat) (id : String) (val : T) :
    PScope.set s i id val =
      match getNode s i with
      | none => s
      | some nd =>
        match lookupA nd.data id with
        | some _ => setData s i (fun d => insertA d id val)
        | none =>
          match nd.parent with
          | some p =>
            match firstBinder s s.length p id with
            | some j => setData s j (fun d => insertA d id val)
            | none => setData s i (fun d => insertA d id val)
          | none => setData s i (fun d => insertA d id val) :=
  setF_eq_firstBinder s s.length i id val

/-- C2: on a well-formed store, `set_global(id, val)` is exactly an
insert-or-overwrite directly in the root's own bindings (the cached root
when there is one, the node itself otherwise), with no ancestor search,
even though the implementation routes through the root's `set`. -/
theorem set_global_refines_root_local_insert {T : Type u} (s : Store T)
    (i : Nat) (id : String) (val : T) (h : StoreInv s) :
    PScope.set_global s i id val = setGlobalSpec s i id val :=
  set_globalF_eq_spec s i id val h

def W2 : Store Nat := PScope.child PScope.new 0

theorem set_global_refines_root_local_insert_witness :
    PScope.set_global W2 1 "x" 5 = setGlobalSpec W2 1 "x" 5 :=
  set_global_refines_root_local_insert W2 1 "x" 5 (by unfold StoreInv; decide)

/-- C4: `update(k, f)` applies `f` to the value at the nearest node of the
self-then-ancestors chain that binds `k`, stores the transformed value there
and returns `some` of `f`'s result; when no node of the chain binds `k` it
returns `none` and leaves the store unchanged. -/
theorem update_transforms_nearest_binding {T A : Type u} (s : Store T)
    (i : Nat) (k : String) (f : T → T × A) :
    PScope.update s i k f =
      match firstBinder s s.length i k with
      | some j =>
        match valueAt s j k with
        | some v => (some (f v).2, setData s j (fun d => insertA d k (f v).1))
        | none => (none, s)
      | none => (none, s) :=
  updateF_eq_firstBinder s f k s.length i

/-- C5: `get(k)` returns the value bound at the nearest node of the
self-then-ancestors chain that binds `k`, and `none` when no node of the
chain binds it. -/
theorem get_returns_nearest_binding {T : Type u} (s : Store T) (i : Nat)
    (k : String) :
    PScope.get s i k =
      match firstBinder s s.length i k with
      | some j => valueAt s j k
      | none => none :=
  getF_eq_firstBinder s k s.length i

/-- C6: `set_local(id, val)` overwrites `id` in the node's own bindings
only: afterwards the node binds `id` to `val`, every other node is
unchanged, every other key of the node is unchanged, and a `get` from any
descendant whose chain reaches `i` without an interposed binding of `id`
returns `val` (shadowing any ancestor binding). -/
theorem set_local_overwrites_locally_and_shadows {T : Type u} (s : Store T)
    (i : Nat) (id : String) (val : T) (d fuel : Nat) (pre rest : List Nat)
    (nd : Scope T) (hnd : getNode s i = some nd)
    (hch : chainF (PScope.set_local s i id val) fuel d = pre ++ i :: rest)
    (hpre : ∀ j ∈ pre, valueAt (PScope.set_local s i id val) j id = none) :
    valueAt (PScope.set_local s i id val) i id = some val ∧
    (∀ m, m ≠ i → getNode (PScope.set_local s i id val) m = getNode s m) ∧
    (∀ k, k ≠ id → valueAt (PScope.set_local s i id val) i k = valueAt s i k) ∧
    Scope.getF (PScope.set_local s i id val) fuel d id = some val := by
  have hval := valueAt_set_local_self hnd id val
  refine ⟨hval, ?_, ?_, ?_⟩
  · intro m hm
    exact getNode_setData_ne s i m _ hm
  · intro k hk
    unfold PScope.set_local valueAt
    rw [getNode_setData_self (fun d0 => insertA d0 id val) hnd, hnd]
    simp [lookupA_insertA_ne _ _ _ _ hk]
  · exact getF_of_chain_split _ id val fuel d i pre rest hch hpre hval

def W6 : Store Nat := PScope.child (PScope.child PScope.new 0) 1

theorem set_local_overwrites_locally_and_shadows_witness :
    valueAt (PScope.set_local W6 1 "x" 2) 1 "x" = some 2 ∧
    getNode (PScope.set_local W6 1 "x" 2) 0 = getNode W6 0 ∧
    valueAt (PScope.set_local W6 1 "x" 2) 1 "y" = valueAt W6 1 "y" ∧
    Scope.getF (PScope.set_local W6 1 "x" 2) 3 2 "x" = some 2 := by
  have h := set_local_overwrites_locally_and_shadows W6 1 "x" 2 2 3 [2] [0]
    { data := [], parent := some 0, root := some 0 } (by decide) (by decide)
    (by decide)
  exact ⟨h.1, h.2.1 0 (by decide), h.2.2.1 "y" (by decide), h.2.2.2⟩

/-! ### The worked scenario of the spec (and of the crate's doctest) -/

def scn1 : Store Nat := PScope.child PScope.new 0

def scn2 : Store Nat := PScope.set_global scn1 1 "x" 1

def scn3 : Store Nat := (PScope.update scn2 0 "x" (fun n => (n + 1, n + 1))).2

def scn4 : Store Nat := PScope.child scn3 1

def scn5 : Store Nat := PScope.child scn4 0

def scn6 : Store Nat := PScope.set_local scn5 1 "y" 7

def scn7 : Store Nat := PScope.set_global scn6 1 "z" 8

def scn8 : Option Nat × Store Nat :=
  PScope.update scn7 2 "y" (fun n => (n + 3, n + 3))

/-- C3: the scenario of spec section 8, run from a fresh root `R` (handle 0)
with `A` = handle 1, `B` = handle 2, `C` = handle 3, yields exactly the
stated results. -/
theorem scenario_section8 :
    PScope.get scn2 0 "x" = some 1 ∧
    PScope.get scn3 1 "x" = some 2 ∧
    PScope.get scn6 2 "y" = some 7 ∧
    PScope.get scn6 3 "y" = none ∧
    PScope.get scn7 2 "z" = some 8 ∧
    PScope.get scn7 3 "z" = some 8 ∧
    scn8.1 = some 10 ∧
    PScope.get scn8.2 1 "y" = some 10 := by
  decide

/-- A reachable tree in which child 1 already shadows `x` locally. -/
def W7cex : Store Nat :=
  PScope.set_local (PScope.child PScope.new 0) 1 "x" 9

/-- C7 counterexample: in the reachable tree where child 1 already shadows
`x` locally before the write, `set_global("x", 1)` does not make `get("x")`
return `1` from node 1, even though no `set_local` happens after the
`set_global`. -/
theorem set_global_visibility_cex :
    Reachable W7cex ∧
    PScope.get (PScope.set_global W7cex 1 "x" 1) 1 "x" = some 9 ∧
    PScope.get (PScope.set_global W7cex 1 "x" 1) 1 "x" ≠ some 1 := by
  refine ⟨?_, by decide, by decide⟩
  exact Reachable.step
    (Reachable.step Reachable.base (Step.child (PScope.new : Store Nat) 0))
    (Step.set_local (PScope.child (PScope.new : Store Nat) 0) 1 "x" 9)

/-- C7 (amended): after `set_global(id, val)` from node `i` of a well-formed
store, `get(id)` returns `val` from every node whose ancestor chain reaches
the root without any strictly-lower node binding `id` (no shadowing on the
reader's chain, whether the shadow predates or postdates the write). -/
theorem set_global_visible_on_unshadowed_chain {T : Type u} (s : Store T)
    (i : Nat) (id : String) (val : T) (n fuel : Nat) (pre rest : List Nat)
    (h : StoreInv s) (hi : i < s.length)
    (hch : chainF (PScope.set_global s i id val) fuel n = pre ++ 0 :: rest)
    (hpre : ∀ j ∈ pre, valueAt (PScope.set_global s i id val) j id = none) :
    Scope.getF (PScope.set_global s i id val) fuel n id = some val := by
  have heq := set_global_eq_setData_zero h hi id val
  obtain ⟨nd0, hnd0⟩ := getNode_lt_length h.1
  have hval : valueAt (PScope.set_global s i id val) 0 id = some val := by
    rw [heq]
    unfold valueAt
    rw [getNode_setData_self (fun d => insertA d id val) hnd0]
    simp [lookupA_insertA_self]
  exact getF_of_chain_split _ id val fuel n 0 pre rest hch hpre hval

def W7 : Store Nat := PScope.child PScope.new 0

theorem set_global_visible_on_unshadowed_chain_witness :
    Scope.getF (PScope.set_global W7 1 "z" 8) 2 1 "z" = some 8 :=
  set_global_visible_on_unshadowed_chain W7 1 "z" 8 1 2 [1] []
    (by unfold StoreInv; decide) (by decide) (by decide) (by decide)

/-- C8: every reachable store satisfies the structural invariant (the cached
root is absent exactly at the unique parentless node, index 0, and every
other node caches it, one hop away), and no operation ever changes the
`parent` or `root` field of an existing node. -/
theorem reachable_tree_invariant {T : Type u} {s s1 : Store T}
    (h : Reachable s) (hstep : Step s s1) :
    StoreInv s ∧ FieldsPreserved s s1 :=
  ⟨storeInv_of_reachable h, fieldsPreserved_of_step hstep⟩

theorem reachable_tree_invariant_witness :
    StoreInv (PScope.new : Store Nat) :=
  (reachable_tree_invariant Reachable.base
    (Step.child (PScope.new : Store Nat) 0)).1

/-- C9: `try_replace(id, val)` overwrites the nearest binding of `id` in the
self-then-ancestors chain and returns `none`; when no node of the chain
binds `id` it returns `some val` (the very value passed in) and leaves the
store unchanged. -/
theorem try_replace_overwrites_nearest_or_returns_value {T : Type u}
    (s : Store T) (i : Nat) (id : String) (val : T) :
    PScope.try_replace s i id val =
      match firstBinder s s.length i id with
      | some j => (none, setData s j (fun d => insertA d id val))
      | none => (some val, s) :=
  try_replaceF_eq_firstBinder s id val s.length i

/-! ### Frame: each operation mutates at most one node, on the caller's
ancestor chain -/

theorem setF_located {T : Type u} {s : Store T} {i : Nat} (h : StoreInv s)
    (hi : i < s.length) (id : String) (val : T) :
    ∃ j, j ∈ chainF s s.length i ∧
      ∀ m, m ≠ j → getNode (Scope.setF s s.length i id val) m = getNode s m := by
  have hself : i ∈ chainF s s.length i :=
    self_mem_chainF s s.length i (by omega)
  cases hnd : getNode s i with
  | none =>
    have heq : Scope.setF s s.length i id val = s := by
      rw [setF_eq_firstBinder, hnd]
    exact ⟨i, hself, fun m _ => by rw [heq]⟩
  | some nd =>
    cases hl : lookupA nd.data id with
    | some v =>
      have heq : Scope.setF s s.length i id val =
          setData s i (fun d => insertA d id val) := by
        rw [setF_eq_firstBinder, hnd]
        simp [hl]
      exact ⟨i, hself, fun m hm => by
        rw [heq]
        exact getNode_setData_ne s i m _ hm⟩
    | none =>
      cases hp : nd.parent with
      | none =>
        have heq : Scope.setF s s.length i id val =
            setData s i (fun d => insertA d id val) := by
          rw [setF_eq_firstBinder, hnd]
          simp [hl, hp]
        exact ⟨i, hself, fun m hm => by
          rw [heq]
          exact getNode_setData_ne s i m _ hm⟩
      | some p =>
        cases hfb : firstBinder s s.length p id with
        | none =>
          have heq : Scope.setF s s.length i id val =
              setData s i (fun d => insertA d id val) := by
            rw [setF_eq_firstBinder, hnd]
            simp [hl, hp, hfb]
          exact ⟨i, hself, fun m hm => by
            rw [heq]
            exact getNode_setData_ne s i m _ hm⟩
        | some j =>
          have heq : Scope.setF s s.length i id val =
              setData s j (fun d => insertA d id val) := by
            rw [setF_eq_firstBinder, hnd]
            simp [hl, hp, hfb]
          have hpo : parentOf s i = some p := by simp [parentOf, hnd, hp]
          have hplt : p < i := parent_lt_of_storeInv h i p hpo
          have hj : j ∈ chainF s s.length p :=
            List.mem_of_find?_eq_some hfb
          have hmem : j ∈ chainF s s.length i := by
            obtain ⟨L, hL⟩ : ∃ L, s.length = L + 1 := ⟨s.length - 1, by omega⟩
            have hcong := chainF_congr (parent_lt_of_storeInv h) p
              (L + 1) L (by omega) (by omega)
            rw [hL] at hj ⊢
            rw [hcong] at hj
            simp only [chainF, hpo]
            exact List.mem_cons_of_mem i hj
          exact ⟨j, hmem, fun m hm => by
            rw [heq]
            exact getNode_setData_ne s j m _ hm⟩

theorem try_replaceF_located {T : Type u} (s : Store T) (i : Nat)
    (hi : i < s.length) (id : String) (val : T) :
    ∃ j, j ∈ chainF s s.length i ∧
      ∀ m, m ≠ j →
        getNode (Scope.try_replaceF s s.length i id val).2 m = getNode s m := by
  cases hfb : firstBinder s s.length i id with
  | some j =>
    have heq : (Scope.try_replaceF s s.length i id val).2 =
        setData s j (fun d => insertA d id val) := by
      rw [try_replaceF_eq_firstBinder, hfb]
    exact ⟨j, List.mem_of_find?_eq_some hfb, fun m hm => by
      rw [heq]
      exact getNode_setData_ne s j m _ hm⟩
  | none =>
    have heq : (Scope.try_replaceF s s.length i id val).2 = s := by
      rw [try_replaceF_eq_firstBinder, hfb]
    exact ⟨i, self_mem_chainF s s.length i (by omega), fun m _ => by rw [heq]⟩

theorem updateF_located {T : Type u} {A : Type u} (s : Store T)
    (f : T → T × A) (i : Nat) (hi : i < s.length) (k : String) :
    ∃ j, j ∈ chainF s s.length i ∧
      ∀ m, m ≠ j →
        getNode (Scope.updateF s f s.length i k).2 m = getNode s m := by
  cases hfb : firstBinder s s.length i k with
  | some j =>
    cases hv : valueAt s j k with
    | some v =>
      have heq : (Scope.updateF s f s.length i k).2 =
          setData s j (fun d => insertA d k (f v).1) := by
        rw [updateF_eq_firstBinder, hfb]
        simp [hv]
      exact ⟨j, List.mem_of_find?_eq_some hfb, fun m hm => by
        rw [heq]
        exact getNode_setData_ne s j m _ hm⟩
    | none =>
      have heq : (Scope.updateF s f s.length i k).2 = s := by
        rw [updateF_eq_firstBinder, hfb]
        simp [hv]
      exact ⟨i, self_mem_chainF s s.length i (by omega), fun m _ => by
        rw [heq]⟩
  | none =>
    have heq : (Scope.updateF s f s.length i k).2 = s := by
      rw [updateF_eq_firstBinder, hfb]
    exact ⟨i, self_mem_chainF s s.length i (by omega), fun m _ => by rw [heq]⟩

theorem getNode_child_old {T : Type u} (s : Store T) (i m : Nat)
    (hm : m < s.length) :
    getNode (PScope.child s i) m = getNode s m := by
  unfold PScope.child
  split
  · rfl
  · unfold getNode
    exact List.getElem?_append_left hm

/-- C10: every operation mutates the bindings of at most one node, and that
node lies on the calling node's self-to-root chain (`set_local` the caller,
`set_global` the root, `set`/`update`/`try_replace` the nearest binder or
the caller); `child` changes no existing node. -/
theorem ops_mutate_at_most_one_chain_node {T A : Type u} (s : Store T)
    (i : Nat) (id k : String) (val : T) (f : T → T × A)
    (h : StoreInv s) (hi : i < s.length) :
    (∃ j, j ∈ chainF s s.length i ∧
      ∀ m, m ≠ j → getNode (PScope.set_local s i id val) m = getNode s m) ∧
    (∃ j, j ∈ chainF s s.length i ∧
      ∀ m, m ≠ j → getNode (PScope.set_global s i id val) m = getNode s m) ∧
    (∃ j, j ∈ chainF s s.length i ∧
      ∀ m, m ≠ j → getNode (PScope.set s i id val) m = getNode s m) ∧
    (∃ j, j ∈ chainF s s.length i ∧
      ∀ m, m ≠ j → getNode (PScope.update s i k f).2 m = getNode s m) ∧
    (∃ j, j ∈ chainF s s.length i ∧
      ∀ m, m ≠ j → getNode (PScope.try_replace s i id val).2 m = getNode s m) ∧
    (∀ m, m < s.length → getNode (PScope.child s i) m = getNode s m) := by
  have hself : i ∈ chainF s s.length i :=
    self_mem_chainF s s.length i (by omega)
  refine ⟨?_, ?_, ?_, ?_, ?_, ?_⟩
  · exact ⟨i, hself, fun m hm => getNode_setData_ne s i m _ hm⟩
  · refine ⟨0, zero_mem_chainF h s.length i hi hi, ?_⟩
    intro m hm
    rw [set_global_eq_setData_zero h hi id val]
    exact getNode_setData_ne s 0 m _ hm
  · exact setF_located h hi id val
  · exact updateF_located s f i hi k
  · exact try_replaceF_located s i hi id val
  · exact fun m hm => getNode_child_old s i m hm

def W10 : Store Nat := PScope.child (PScope.child PScope.new 0) 1

theorem ops_mutate_at_most_one_chain_node_witness :
    getNode (PScope.child W10 1) 0 = getNode W10 0 :=
  (ops_mutate_at_most_one_chain_node W10 1 "x" "y" 5 (fun v => (v + 1, v))
    (by unfold StoreInv; decide) (by decide)).2.2.2.2.2 0 (by decide)
